import Mathlib

/-!
Verification of the Burrows-Wheeler transform module of this repository
(the paleni_bwt module: bwTransform and bwInverse, demonstrated in
demo_bwt.ipynb).

The module itself (bwt.py / paleni_bwt.py) is not part of the source tree
here; only the notebook that documents and exercises it is.  The
definitions below are therefore modelled from the specification and from
the notebook's algorithm description and recorded outputs:

* forward transform via the suffix array of the terminator-extended
  sequence, sorted lexicographically (numpy.argsort on the suffix
  strings), with B[i] = terminator when S[i] = 0 and X[S[i]-1] otherwise;
* inverse transform via the count table C, the rank table P and the LF
  map T[i] = C[L[i]] + P[i], walking T from the terminator's position and
  assembling the decoded characters in original order;
* validation: a TypeError "The input is not a string" for non-string
  inputs, and a single TerminatorError class (with three distinct
  messages, as recorded in the notebook) for the three terminator
  failures.

Sequences are modelled as List Char, ordered by code point, exactly the
order numpy uses on the notebook's inputs.
-/

namespace BWT

/-- The terminator character used by the module (configuration constant). -/
def term : Char := '$'

/-- Strict lexicographic comparison of character lists in code-point
order: the order numpy.argsort uses on the suffix strings. -/
def lexLt : List Char → List Char → Bool
  | [], [] => false
  | [], _ :: _ => true
  | _ :: _, [] => false
  | a :: as, b :: bs => if a < b then true else if b < a then false else lexLt as bs

/-- Whether the first list is an initial segment of the second. -/
def isPref : List Char → List Char → Bool
  | [], _ => true
  | _ :: _, [] => false
  | a :: as, b :: bs => a == b && isPref as bs

/-- Ordered insertion of an index into a list of indexes. -/
def insertOrd (le : Nat → Nat → Bool) (a : Nat) : List Nat → List Nat
  | [] => [a]
  | b :: l => if le a b then a :: b :: l else b :: insertOrd le a l

/-- Comparison sort of a list of indexes.  All sort keys that occur in
this development are pairwise distinct, so any correct comparison sort
(numpy.argsort included) produces this same permutation. -/
def insSort (le : Nat → Nat → Bool) : List Nat → List Nat
  | [] => []
  | a :: l => insertOrd le a (insSort le l)

/-- The extended sequence: the input followed by the terminator. -/
def extSeq (s : List Char) : List Char := s ++ [term]

/-- The rotation of the extended sequence starting at offset i. -/
def rotAt (s : List Char) (i : Nat) : List Char :=
  (extSeq s).drop i ++ (extSeq s).take i

/-- The suffix of the extended sequence starting at position i. -/
def sfx (s : List Char) (i : Nat) : List Char := (extSeq s).drop i

/-- Comparison of suffix start positions by their suffixes. -/
def sfxLe (s : List Char) (i j : Nat) : Bool := !(lexLt (sfx s j) (sfx s i))

/-- Comparison of rotation offsets by their rotations. -/
def rotLe (s : List Char) (i j : Nat) : Bool := !(lexLt (rotAt s j) (rotAt s i))

/-- Modelled from the spec: the suffix array of the extended sequence,
the lexicographically sorted array of suffix start positions that the
missing module computes with numpy.argsort on the suffix strings. -/
def suffixArr (s : List Char) : List Nat :=
  insSort (sfxLe s) (List.range (s.length + 1))

/-- The Rotation Order of the spec: offsets 0..N sorted by the
lexicographic order of their rotations. -/
def rotOrder (s : List Char) : List Nat :=
  insSort (rotLe s) (List.range (s.length + 1))

/-- Modelled from the spec: the forward transform body of the missing
module, B[i] = terminator if S[i] = 0 and X[S[i]-1] otherwise, where S is
the suffix array. -/
def bwTransform (s : List Char) : List Char :=
  (suffixArr s).map (fun i => if i = 0 then term else s.getD (i - 1) term)

/-- The sorted-rotations definition of the transform from the spec:
entry k is Extended Sequence[(offset_k - 1 + N+1) mod (N+1)], with
offset_k the k-th element of Rotation Order. -/
def transformRot (s : List Char) : List Char :=
  (rotOrder s).map (fun p => (extSeq s).getD ((p + s.length) % (s.length + 1)) term)

/-- Modelled from the spec: the count table C of the missing module;
C[c] is the number of occurrences in y of characters smaller than c. -/
def cTab (y : List Char) (c : Char) : Nat := y.countP (fun d => decide (d < c))

/-- Modelled from the spec: the rank table P of the missing module;
P[i] is the number of occurrences of y[i] in the prefix y[0:i]. -/
def pTab (y : List Char) (i : Nat) : Nat := (y.take i).count (y.getD i term)

/-- The LF map T[i] = C[L[i]] + P[i]. -/
def lfT (y : List Char) (i : Nat) : Nat := cTab y (y.getD i term) + pTab y i

/-- The position of the first terminator in a list. -/
def idxTerm : List Char → Nat
  | [] => 0
  | c :: l => if c = term then 0 else idxTerm l + 1

/-- The reconstruction walk: starting from position i, repeatedly step
through the LF map and record the visited positions, in walk order. -/
def walkIdx (y : List Char) : Nat → Nat → List Nat
  | 0, _ => []
  | m + 1, i => lfT y i :: walkIdx y m (lfT y i)

/-- Modelled from the spec: the inverse transform body of the missing
module.  The walk starts at the terminator's position, performs
N = |y| - 1 LF steps recording the decoded positions, and the decoded
characters are assembled in original order (the walk reconstructs the
sequence back to front). -/
def bwInverse (y : List Char) : List Char :=
  ((walkIdx y (y.length - 1) (idxTerm y)).map (fun i => y.getD i term)).reverse

/-- Model of a dynamically typed Python input value. -/
inductive PyObj where
  | str (s : List Char)
  | int (n : Int)
  | list (xs : List PyObj)
  | none

/-- Model of the exceptions the module raises: the builtin TypeError
class, and the module's single customized TerminatorError class, each
carrying a message. -/
inductive PyError where
  | typeError (msg : String)
  | terminatorError (msg : String)
deriving DecidableEq

/-- A single quote character, written by code point. -/
def sq : String := String.singleton (Char.ofNat 39)

/-- The recorded TypeError message. -/
def typeMsg : String := "The input is not a string"

/-- The recorded TerminatorError message of the forward direction. -/
def presentMsg : String :=
  "The input cannot contain the terminator character (" ++ sq ++ "$" ++ sq ++
    "). Please provide another string."

/-- The recorded TerminatorError message for a missing terminator. -/
def missingMsg : String :=
  "The input does not contain the terminator character (" ++ sq ++ "$" ++ sq ++
    "). Please provide a coded string."

/-- The recorded TerminatorError message for a duplicated terminator. -/
def dupMsg : String :=
  "The terminator (" ++ sq ++ "$" ++ sq ++
    ") cannot be present more than once in the coded string. Please provide another string."

/-- Modelled from the spec: bwTransform of the missing module with its
input validation, returning either the transform or the raised error. -/
def bwTransformE : PyObj → Except PyError (List Char)
  | .str s =>
      if term ∈ s then .error (.terminatorError presentMsg)
      else .ok (bwTransform s)
  | _ => .error (.typeError typeMsg)

/-- Modelled from the spec: bwInverse of the missing module with its
input validation, returning either the decoded sequence or the raised
error. -/
def bwInverseE : PyObj → Except PyError (List Char)
  | .str y =>
      if y.count term = 0 then .error (.terminatorError missingMsg)
      else if 1 < y.count term then .error (.terminatorError dupMsg)
      else .ok (bwInverse y)
  | _ => .error (.typeError typeMsg)

/-- The LF walk from the terminator's position is a single cycle: it
first returns to its start after exactly |y| steps. -/
def lfCycle (y : List Char) : Prop :=
  (lfT y)^[y.length] (idxTerm y) = idxTerm y ∧
    ∀ m, 0 < m → m < y.length → (lfT y)^[m] (idxTerm y) ≠ idxTerm y

/-- The character the transform records for the rotation with offset p:
the last character of that rotation. -/
def lastCh (s : List Char) (p : Nat) : Char :=
  (extSeq s).getD ((p + s.length) % (s.length + 1)) term

/-- The rank of offset i: how many rotations are lexicographically
smaller than the rotation starting at i. -/
def rankR (s : List Char) (i : Nat) : Nat :=
  List.countP (fun j => lexLt (rotAt s j) (rotAt s i)) (List.range (s.length + 1))

/-- The exception classes the module's callers can catch: the builtin
TypeError and the module's TerminatorError. -/
inductive ErrCls where
  | typeCls
  | termCls
deriving DecidableEq

/-- The exception class of a modelled error, forgetting the message. -/
def PyError.cls : PyError → ErrCls
  | .typeError _ => ErrCls.typeCls
  | .terminatorError _ => ErrCls.termCls

end BWT

namespace BWT

theorem lexLt_irrefl (a : List Char) : lexLt a a = false := by
  induction a with
  | nil => rfl
  | cons x as ih => simp [lexLt, ih]

theorem lexLt_asymm (a b : List Char) (h : lexLt a b = true) : lexLt b a = false := by
  induction a generalizing b with
  | nil =>
    cases b with
    | nil => simp [lexLt] at h
    | cons y bs => rfl
  | cons x as ih =>
    cases b with
    | nil => simp [lexLt] at h
    | cons y bs =>
      by_cases hxy : x < y
      · have hyx : ¬ y < x := asymm hxy
        simp [lexLt, hyx, hxy]
      · by_cases hyx : y < x
        · simp [lexLt, hxy, hyx] at h
        · have hx : x = y := le_antisymm (not_lt.mp hyx) (not_lt.mp hxy)
          subst hx
          simp only [lexLt, lt_irrefl, if_false] at h ⊢
          exact ih bs h

theorem lexLt_trans (a : List Char) (b c : List Char)
    (hab : lexLt a b = true) (hbc : lexLt b c = true) : lexLt a c = true := by
  induction a generalizing b c with
  | nil =>
    cases c with
    | nil =>
      cases b with
      | nil => simp [lexLt] at hab
      | cons y bs => simp [lexLt] at hbc
    | cons z cs => rfl
  | cons x as ih =>
    cases b with
    | nil => simp [lexLt] at hab
    | cons y bs =>
      cases c with
      | nil => simp [lexLt] at hbc
      | cons z cs =>
        by_cases hxy : x < y
        · by_cases hyz : y < z
          · have hxz : x < z := lt_trans hxy hyz
            simp [lexLt, hxz]
          · by_cases hzy : z < y
            · simp [lexLt, hyz, hzy] at hbc
            · have hyzeq : y = z := le_antisymm (not_lt.mp hzy) (not_lt.mp hyz)
              subst hyzeq
              simp [lexLt, hxy]
        · by_cases hyx : y < x
          · simp [lexLt, hxy, hyx] at hab
          · have hx : x = y := le_antisymm (not_lt.mp hyx) (not_lt.mp hxy)
            subst hx
            simp only [lexLt, lt_irrefl, if_false] at hab
            by_cases hyz : x < z
            · simp [lexLt, hyz]
            · by_cases hzy : z < x
              · simp [lexLt, hyz, hzy] at hbc
              · have hxz : x = z := le_antisymm (not_lt.mp hzy) (not_lt.mp hyz)
                subst hxz
                simp only [lexLt, lt_irrefl, if_false] at hbc ⊢
                exact ih bs cs hab hbc

theorem lexLt_conn (a b : List Char) (h : a ≠ b) :
    lexLt a b = true ∨ lexLt b a = true := by
  induction a generalizing b with
  | nil =>
    cases b with
    | nil => exact absurd rfl h
    | cons y bs => left; rfl
  | cons x as ih =>
    cases b with
    | nil => right; rfl
    | cons y bs =>
      by_cases hxy : x < y
      · left; simp [lexLt, hxy]
      · by_cases hyx : y < x
        · right; simp [lexLt, hyx]
        · have hx : x = y := le_antisymm (not_lt.mp hyx) (not_lt.mp hxy)
          subst hx
          have hne : as ≠ bs := by
            intro hEq; exact h (by rw [hEq])
          rcases ih bs hne with h1 | h1
          · left; simp only [lexLt, lt_irrefl, if_false]; exact h1
          · right; simp only [lexLt, lt_irrefl, if_false]; exact h1

theorem lexLe_trans (a b c : List Char)
    (hba : lexLt b a = false) (hcb : lexLt c b = false) : lexLt c a = false := by
  by_contra hca
  have hca' : lexLt c a = true := by
    cases hcat : lexLt c a with
    | false => exact absurd hcat hca
    | true => rfl
  rcases eq_or_ne c b with rfl | hne
  · rw [hca'] at hba; exact Bool.noConfusion hba
  · rcases lexLt_conn c b hne with h1 | h1
    · rw [h1] at hcb; exact Bool.noConfusion hcb
    · have : lexLt b a = true := lexLt_trans b c a h1 hca'
      rw [this] at hba; exact Bool.noConfusion hba

end BWT

namespace BWT

theorem lexLt_cons (x y : Char) (u v : List Char) :
    lexLt (x :: u) (y :: v) =
      if x < y then true else if y < x then false else lexLt u v := rfl

theorem isPref_refl (a : List Char) : isPref a a = true := by
  induction a with
  | nil => rfl
  | cons x as ih => simp [isPref, ih]

theorem isPref_of_ne (a b : List Char) (hlen : a.length = b.length) (hne : a ≠ b) :
    isPref a b = false := by
  induction a generalizing b with
  | nil =>
    cases b with
    | nil => exact absurd rfl hne
    | cons y bs => simp at hlen
  | cons x as ih =>
    cases b with
    | nil => simp at hlen
    | cons y bs =>
      by_cases hxy : x = y
      · subst hxy
        have hne' : as ≠ bs := fun hEq => hne (by rw [hEq])
        simp only [isPref, beq_self_eq_true _, Bool.true_and]
        exact ih bs (by simpa using hlen) hne'
      · simp [isPref, hxy]

theorem lexLt_append (a : List Char) (b u v : List Char)
    (hab : isPref a b = false) (hba : isPref b a = false) :
    lexLt (a ++ u) (b ++ v) = lexLt a b := by
  induction a generalizing b with
  | nil => simp [isPref] at hab
  | cons x as ih =>
    cases b with
    | nil => simp [isPref] at hba
    | cons y bs =>
      rw [List.cons_append, List.cons_append, lexLt_cons, lexLt_cons]
      by_cases hxy : x < y
      · simp [hxy]
      · by_cases hyx : y < x
        · simp [hxy, hyx]
        · have hx : x = y := le_antisymm (not_lt.mp hyx) (not_lt.mp hxy)
          subst hx
          simp only [lt_irrefl, if_false]
          simp only [isPref, beq_self_eq_true _, Bool.true_and] at hab hba
          exact ih bs hab hba

theorem eq_of_isPref_append_term (a b : List Char) (ha : term ∉ a) (hb : term ∉ b)
    (h : isPref (a ++ [term]) (b ++ [term]) = true) : a = b := by
  induction a generalizing b with
  | nil =>
    cases b with
    | nil => rfl
    | cons y bs =>
      rw [List.nil_append, List.cons_append] at h
      simp only [isPref, Bool.and_eq_true, beq_iff_eq] at h
      exact absurd h.1.symm (fun hEq => hb (by rw [hEq]; exact List.mem_cons_self _ _))
  | cons x as ih =>
    cases b with
    | nil =>
      rw [List.cons_append, List.nil_append] at h
      simp only [isPref, Bool.and_eq_true, beq_iff_eq] at h
      exact absurd h.1 (fun hEq => ha (by rw [hEq]; exact List.mem_cons_self _ _))
    | cons y bs =>
      rw [List.cons_append, List.cons_append] at h
      simp only [isPref, Bool.and_eq_true, beq_iff_eq] at h
      have ha' : term ∉ as := fun hm => ha (List.mem_cons_of_mem _ hm)
      have hb' : term ∉ bs := fun hm => hb (List.mem_cons_of_mem _ hm)
      rw [h.1, ih bs ha' hb' h.2]

end BWT

namespace BWT

theorem insertOrd_perm (le : Nat → Nat → Bool) (a : Nat) (l : List Nat) :
    (insertOrd le a l).Perm (a :: l) := by
  induction l with
  | nil => exact List.Perm.refl _
  | cons b l ih =>
    by_cases h : le a b = true
    · simp only [insertOrd, h, if_true]
      exact List.Perm.refl _
    · simp only [insertOrd, h, if_false]
      exact (ih.cons b).trans (List.Perm.swap a b l)

theorem insSort_perm (le : Nat → Nat → Bool) (l : List Nat) :
    (insSort le l).Perm l := by
  induction l with
  | nil => exact List.Perm.refl _
  | cons a l ih =>
    exact (insertOrd_perm le a (insSort le l)).trans (ih.cons a)

theorem mem_insertOrd (le : Nat → Nat → Bool) (a x : Nat) (l : List Nat) :
    x ∈ insertOrd le a l ↔ x = a ∨ x ∈ l := by
  rw [(insertOrd_perm le a l).mem_iff, List.mem_cons]

theorem pairwise_insertOrd (le : Nat → Nat → Bool)
    (htot : ∀ a b, le a b = true ∨ le b a = true)
    (htr : ∀ a b c, le a b = true → le b c = true → le a c = true)
    (a : Nat) (l : List Nat) (hl : l.Pairwise (fun x y => le x y = true)) :
    (insertOrd le a l).Pairwise (fun x y => le x y = true) := by
  induction l with
  | nil => simp [insertOrd]
  | cons b l ih =>
    rw [List.pairwise_cons] at hl
    by_cases h : le a b = true
    · rw [insertOrd, if_pos h, List.pairwise_cons]
      refine ⟨?_, List.pairwise_cons.mpr hl⟩
      intro x hx
      rcases List.mem_cons.mp hx with rfl | hx'
      · exact h
      · exact htr a b x h (hl.1 x hx')
    · rw [insertOrd, if_neg h, List.pairwise_cons]
      refine ⟨?_, ih hl.2⟩
      intro x hx
      rcases (mem_insertOrd le a x l).mp hx with hxa | hx'
      · rw [hxa]
        rcases htot a b with h1 | h1
        · exact absurd h1 h
        · exact h1
      · exact hl.1 x hx'

theorem insSort_pairwise (le : Nat → Nat → Bool)
    (htot : ∀ a b, le a b = true ∨ le b a = true)
    (htr : ∀ a b c, le a b = true → le b c = true → le a c = true)
    (l : List Nat) :
    (insSort le l).Pairwise (fun x y => le x y = true) := by
  induction l with
  | nil => simp [insSort]
  | cons a l ih => exact pairwise_insertOrd le htot htr a (insSort le l) ih

end BWT

namespace BWT

theorem list_eq_of_getD {α : Type} (l₁ l₂ : List α) (d : α) (hlen : l₁.length = l₂.length)
    (h : ∀ k, k < l₁.length → l₁.getD k d = l₂.getD k d) : l₁ = l₂ := by
  apply List.ext_getElem hlen
  intro n h₁ h₂
  have hd := h n h₁
  rwa [List.getD_eq_getElem _ _ h₁, List.getD_eq_getElem _ _ h₂] at hd

theorem map_getD_range {α : Type} (l : List α) (d : α) :
    (List.range l.length).map (fun i => l.getD i d) = l := by
  induction l with
  | nil => rfl
  | cons a l ih =>
    rw [List.length_cons, List.range_succ_eq_map, List.map_cons, List.map_map]
    have h1 : ((fun i => (a :: l).getD i d) ∘ Nat.succ) = (fun i => l.getD i d) := rfl
    rw [h1, ih]
    rfl

theorem countP_positions {α : Type} (p : α → Bool) (l : List α) (d : α) :
    List.countP p l = List.countP (fun i => p (l.getD i d)) (List.range l.length) := by
  conv_lhs => rw [← map_getD_range l d]
  rw [List.countP_map]
  rfl

theorem countP_disjoint {α : Type} (p q : α → Bool) (l : List α)
    (h : ∀ x ∈ l, p x = true → q x = false) :
    List.countP (fun x => p x || q x) l = List.countP p l + List.countP q l := by
  induction l with
  | nil => rfl
  | cons a l ih =>
    have ha := h a (List.mem_cons_self a l)
    have ih' := ih (fun x hx => h x (List.mem_cons_of_mem a hx))
    rw [List.countP_cons, List.countP_cons, List.countP_cons, ih']
    cases hp : p a <;> cases hq : q a <;> simp_all <;> omega

theorem countP_lt_range (k n : Nat) (h : k ≤ n) :
    List.countP (fun i => decide (i < k)) (List.range n) = k := by
  induction n with
  | zero =>
    have hk : k = 0 := Nat.le_zero.mp h
    subst hk; rfl
  | succ n ih =>
    by_cases hk : k ≤ n
    · rw [List.range_succ, List.countP_append, ih hk]
      simp [Nat.not_lt.mpr hk]
    · have hk' : k = n + 1 := le_antisymm h (Nat.succ_le_of_lt (Nat.not_le.mp hk))
      subst hk'
      rw [List.range_succ, List.countP_append]
      have hall : List.countP (fun i => decide (i < n + 1)) (List.range n) = n := by
        rw [List.countP_eq_length.mpr, List.length_range]
        intro a ha
        simp [Nat.lt_succ_of_lt (List.mem_range.mp ha)]
      rw [hall]
      simp [Nat.lt_succ_self]

theorem countP_and_lt_range (p : Nat → Bool) (j n : Nat) (h : j ≤ n) :
    List.countP (fun k => p k && decide (k < j)) (List.range n) =
      List.countP p (List.range j) := by
  induction n with
  | zero =>
    have hj : j = 0 := Nat.le_zero.mp h
    subst hj; rfl
  | succ n ih =>
    by_cases hj : j ≤ n
    · rw [List.range_succ, List.countP_append, ih hj]
      simp [Nat.not_lt.mpr hj]
    · have hj' : j = n + 1 := le_antisymm h (Nat.succ_le_of_lt (Nat.not_le.mp hj))
      subst hj'
      apply List.countP_congr
      intro x hx
      simp [List.mem_range.mp hx]

theorem countP_lt_of {α : Type} (p q : α → Bool) (l : List α)
    (himp : ∀ x ∈ l, p x = true → q x = true)
    (x : α) (hx : x ∈ l) (hpx : p x = false) (hqx : q x = true) :
    List.countP p l < List.countP q l := by
  have hsplit : List.countP q l = List.countP p l + List.countP (fun y => q y && !p y) l := by
    rw [← countP_disjoint p (fun y => q y && !p y) l (fun z _ hpz => by simp [hpz])]
    apply List.countP_congr
    intro z hz
    cases hp : p z
    · simp [hp]
    · simp [hp, himp z hz hp]
  have hpos : 0 < List.countP (fun y => q y && !p y) l :=
    List.countP_pos_iff.mpr ⟨x, hx, by simp [hqx, hpx]⟩
  omega

end BWT

namespace BWT

theorem getD_mem {α : Type} (l : List α) (d : α) (k : Nat) (hk : k < l.length) :
    l.getD k d ∈ l := by
  rw [List.getD_eq_getElem _ _ hk]
  exact List.getElem_mem hk

theorem extSeq_length (s : List Char) : (extSeq s).length = s.length + 1 := by
  rw [extSeq, List.length_append, List.length_cons, List.length_nil]

theorem extSeq_getD_lt (s : List Char) (k : Nat) (hk : k < s.length) :
    (extSeq s).getD k term = s.getD k term :=
  List.getD_append _ _ _ _ hk

theorem extSeq_getD_last (s : List Char) : (extSeq s).getD s.length term = term := by
  rw [extSeq, List.getD_append_right _ _ _ _ (le_refl _), Nat.sub_self]
  rfl

theorem extSeq_getD_term_iff (s : List Char) (hs : term ∉ s) (k : Nat)
    (hk : k < s.length + 1) : (extSeq s).getD k term = term ↔ k = s.length := by
  constructor
  · intro h
    by_contra hne
    have hk' : k < s.length := by omega
    rw [extSeq_getD_lt s k hk'] at h
    exact hs (h ▸ getD_mem s term k hk')
  · intro h
    rw [h]
    exact extSeq_getD_last s

theorem rotAt_length (s : List Char) (i : Nat) :
    (rotAt s i).length = s.length + 1 := by
  rw [rotAt, List.length_append, List.length_drop, List.length_take, extSeq_length]
  omega

theorem rotAt_getD (s : List Char) (i k : Nat) (hi : i < s.length + 1)
    (hk : k < s.length + 1) :
    (rotAt s i).getD k term = (extSeq s).getD ((i + k) % (s.length + 1)) term := by
  have hext : (extSeq s).length = s.length + 1 := extSeq_length s
  have hd : ((extSeq s).drop i).length = s.length + 1 - i := by
    rw [List.length_drop, hext]
  by_cases hcase : k < s.length + 1 - i
  · have h1 : (rotAt s i).getD k term = ((extSeq s).drop i).getD k term := by
      rw [rotAt]
      exact List.getD_append _ _ _ _ (by omega)
    have hik : i + k < s.length + 1 := by omega
    have h2 : ((extSeq s).drop i).getD k term = (extSeq s).getD (i + k) term := by
      rw [List.getD_eq_getElem _ _ (by omega), List.getD_eq_getElem _ _ (by omega),
        List.getElem_drop]
    rw [h1, h2, Nat.mod_eq_of_lt hik]
  · have hki : s.length + 1 - i ≤ k := Nat.not_lt.mp hcase
    have htk : ((extSeq s).take i).length = i := by
      rw [List.length_take, hext]
      omega
    have h1 : (rotAt s i).getD k term =
        ((extSeq s).take i).getD (k - (s.length + 1 - i)) term := by
      rw [rotAt, List.getD_append_right _ _ _ _ (by omega), hd]
    have hlt : k - (s.length + 1 - i) < i := by omega
    have h2 : ((extSeq s).take i).getD (k - (s.length + 1 - i)) term =
        (extSeq s).getD (k - (s.length + 1 - i)) term := by
      rw [List.getD_eq_getElem _ _ (by omega), List.getD_eq_getElem _ _ (by omega)]
      exact List.getElem_take _
    have h3 : (i + k) % (s.length + 1) = k - (s.length + 1 - i) := by
      rw [Nat.mod_eq_sub_mod (by omega), Nat.mod_eq_of_lt (by omega)]
      omega
    rw [h1, h2, h3]

end BWT

namespace BWT

theorem transformRot_eq_map (s : List Char) :
    transformRot s = (rotOrder s).map (lastCh s) := rfl

theorem pIdx_lt (N p : Nat) : (p + N) % (N + 1) < N + 1 :=
  Nat.mod_lt _ (Nat.succ_pos N)

theorem pIdx_of_pos (N p : Nat) (h1 : 1 ≤ p) (h2 : p < N + 1) :
    (p + N) % (N + 1) = p - 1 := by
  rw [Nat.mod_eq_sub_mod (by omega), Nat.mod_eq_of_lt (by omega)]
  omega

theorem pIdx_zero (N : Nat) : (0 + N) % (N + 1) = N := by
  rw [Nat.zero_add]
  exact Nat.mod_eq_of_lt (by omega)

theorem pIdx_sIdx (N q : Nat) (hq : q < N + 1) :
    ((q + 1) % (N + 1) + N) % (N + 1) = q := by
  by_cases h : q = N
  · subst h
    rw [Nat.mod_self, Nat.zero_add]
    exact Nat.mod_eq_of_lt (by omega)
  · have h1 : (q + 1) % (N + 1) = q + 1 := Nat.mod_eq_of_lt (by omega)
    rw [h1, Nat.mod_eq_sub_mod (by omega), Nat.mod_eq_of_lt (by omega)]
    omega

theorem pIdx_eq_last_iff (N p : Nat) (hp : p < N + 1) :
    (p + N) % (N + 1) = N ↔ p = 0 := by
  constructor
  · intro h
    by_contra hne
    rw [pIdx_of_pos N p (by omega) hp] at h
    omega
  · intro h
    subst h
    exact pIdx_zero N

theorem rotAt_term_pos (s : List Char) (hs : term ∉ s) (i k : Nat)
    (hi : i < s.length + 1) (hk : k < s.length + 1) :
    (rotAt s i).getD k term = term ↔ i + k = s.length := by
  rw [rotAt_getD s i k hi hk,
    extSeq_getD_term_iff s hs _ (Nat.mod_lt _ (Nat.succ_pos _))]
  constructor
  · intro h
    by_cases hcase : i + k < s.length + 1
    · rwa [Nat.mod_eq_of_lt hcase] at h
    · rw [Nat.mod_eq_sub_mod (by omega), Nat.mod_eq_of_lt (by omega)] at h
      omega
  · intro h
    rw [h]
    exact Nat.mod_eq_of_lt (by omega)

theorem rotAt_inj (s : List Char) (hs : term ∉ s) (i j : Nat)
    (hi : i < s.length + 1) (hj : j < s.length + 1) (h : rotAt s i = rotAt s j) :
    i = j := by
  have h1 : (rotAt s i).getD (s.length - i) term = term :=
    (rotAt_term_pos s hs i (s.length - i) hi (by omega)).mpr (by omega)
  rw [h] at h1
  have h2 := (rotAt_term_pos s hs j (s.length - i) hj (by omega)).mp h1
  omega

theorem dropLast_getD {α : Type} (l : List α) (d : α) (k : Nat)
    (hk : k < l.length - 1) : l.dropLast.getD k d = l.getD k d := by
  have hk' : k < l.dropLast.length := by
    rw [List.length_dropLast]
    exact hk
  rw [List.getD_eq_getElem _ _ hk', List.getD_eq_getElem _ _ (by omega)]
  exact List.getElem_dropLast l k hk'

theorem rotAt_zero (s : List Char) : rotAt s 0 = extSeq s := by
  rw [rotAt, List.drop_zero, List.take_zero, List.append_nil]

theorem dropLast_rotAt_zero (s : List Char) : (rotAt s 0).dropLast = s := by
  rw [rotAt_zero, extSeq, List.dropLast_concat]

theorem dropLast_rotAt_term (s : List Char) (hs : term ∉ s) (j : Nat)
    (hj0 : j ≠ 0) (hj : j < s.length + 1) :
    (rotAt s j).dropLast.getD (s.length - j) term = term := by
  have hlen : (rotAt s j).length = s.length + 1 := rotAt_length s j
  rw [dropLast_getD _ _ _ (by omega)]
  exact (rotAt_term_pos s hs j (s.length - j) hj (by omega)).mpr (by omega)

theorem dropLast_rotAt_inj (s : List Char) (hs : term ∉ s) (i j : Nat)
    (hi : i < s.length + 1) (hj : j < s.length + 1)
    (h : (rotAt s i).dropLast = (rotAt s j).dropLast) : i = j := by
  by_contra hne
  by_cases hi0 : i = 0
  · subst hi0
    have hj0 : j ≠ 0 := fun hEq => hne hEq.symm
    have h1 := dropLast_rotAt_term s hs j hj0 hj
    rw [← h, dropLast_rotAt_zero] at h1
    exact hs (h1 ▸ getD_mem s term (s.length - j) (by omega))
  · by_cases hj0 : j = 0
    · subst hj0
      have h1 := dropLast_rotAt_term s hs i hi0 hi
      rw [h, dropLast_rotAt_zero] at h1
      exact hs (h1 ▸ getD_mem s term (s.length - i) (by omega))
    · have h1 := dropLast_rotAt_term s hs i hi0 hi
      rw [h] at h1
      have hlen : (rotAt s j).length = s.length + 1 := rotAt_length s j
      rw [dropLast_getD _ _ _ (by omega)] at h1
      have h2 := (rotAt_term_pos s hs j (s.length - i) hj (by omega)).mp h1
      omega

theorem rotAt_pred (s : List Char) (p : Nat) (hp : p < s.length + 1) :
    rotAt s ((p + s.length) % (s.length + 1)) = lastCh s p :: (rotAt s p).dropLast := by
  apply list_eq_of_getD _ _ term
  · rw [rotAt_length, List.length_cons, List.length_dropLast, rotAt_length]
    omega
  · intro k hk
    rw [rotAt_length] at hk
    cases k with
    | zero =>
      rw [List.getD_cons_zero,
        rotAt_getD s _ 0 (Nat.mod_lt _ (Nat.succ_pos _)) (by omega),
        Nat.add_zero, Nat.mod_mod_of_dvd]
      · rfl
      · exact dvd_refl _
    | succ k =>
      rw [List.getD_cons_succ,
        rotAt_getD s _ (k + 1) (Nat.mod_lt _ (Nat.succ_pos _)) hk,
        dropLast_getD _ _ _ (by rw [rotAt_length]; omega),
        rotAt_getD s p k hp (by omega)]
      have harith : ((p + s.length) % (s.length + 1) + (k + 1)) % (s.length + 1) =
          (p + k) % (s.length + 1) := by
        rw [Nat.mod_add_mod]
        have : p + s.length + (k + 1) = p + k + (s.length + 1) := by omega
        rw [this, Nat.add_mod_right]
      rw [harith]

theorem rotAt_succ (s : List Char) (q : Nat) (hq : q < s.length + 1) :
    rotAt s q =
      (extSeq s).getD q term :: (rotAt s ((q + 1) % (s.length + 1))).dropLast := by
  have h := rotAt_pred s ((q + 1) % (s.length + 1)) (Nat.mod_lt _ (Nat.succ_pos _))
  rw [lastCh] at h
  rw [pIdx_sIdx s.length q hq] at h
  exact h

end BWT

namespace BWT

theorem sfx_form (s : List Char) (i : Nat) (hi : i < s.length + 1) :
    sfx s i = s.drop i ++ [term] := by
  rw [sfx, extSeq, List.drop_append_of_le_length (by omega)]

theorem sfx_inj_of_isPref (s : List Char) (hs : term ∉ s) (i j : Nat)
    (hi : i < s.length + 1) (hj : j < s.length + 1)
    (h : isPref (sfx s i) (sfx s j) = true) : i = j := by
  rw [sfx_form s i hi, sfx_form s j hj] at h
  have hdi : term ∉ s.drop i := fun hm => hs (List.mem_of_mem_drop hm)
  have hdj : term ∉ s.drop j := fun hm => hs (List.mem_of_mem_drop hm)
  have hEq := eq_of_isPref_append_term _ _ hdi hdj h
  have hlen := congrArg List.length hEq
  rw [List.length_drop, List.length_drop] at hlen
  omega

theorem isPref_sfx_false (s : List Char) (hs : term ∉ s) (i j : Nat)
    (hi : i < s.length + 1) (hj : j < s.length + 1) (hne : i ≠ j) :
    isPref (sfx s i) (sfx s j) = false := by
  cases h : isPref (sfx s i) (sfx s j) with
  | false => rfl
  | true => exact absurd (sfx_inj_of_isPref s hs i j hi hj h) hne

theorem lexLt_sfx_rot (s : List Char) (hs : term ∉ s) (i j : Nat)
    (hi : i < s.length + 1) (hj : j < s.length + 1) :
    lexLt (sfx s i) (sfx s j) = lexLt (rotAt s i) (rotAt s j) := by
  by_cases hne : i = j
  · subst hne
    rw [lexLt_irrefl, lexLt_irrefl]
  · have h1 : isPref (sfx s i) (sfx s j) = false :=
      isPref_sfx_false s hs i j hi hj hne
    have h2 : isPref (sfx s j) (sfx s i) = false :=
      isPref_sfx_false s hs j i hj hi (fun hEq => hne hEq.symm)
    have hri : rotAt s i = sfx s i ++ (extSeq s).take i := rfl
    have hrj : rotAt s j = sfx s j ++ (extSeq s).take j := rfl
    rw [hri, hrj, lexLt_append _ _ _ _ h1 h2]

theorem sfxLe_total (s : List Char) (a b : Nat) :
    sfxLe s a b = true ∨ sfxLe s b a = true := by
  cases h : lexLt (sfx s b) (sfx s a) with
  | false => left; rw [sfxLe, h]; rfl
  | true => right; rw [sfxLe, lexLt_asymm _ _ h]; rfl

theorem sfxLe_trans (s : List Char) (a b c : Nat)
    (h1 : sfxLe s a b = true) (h2 : sfxLe s b c = true) : sfxLe s a c = true := by
  rw [sfxLe, Bool.not_eq_true'] at h1 h2 ⊢
  exact lexLe_trans (sfx s a) (sfx s b) (sfx s c) h1 h2

theorem rotLe_total (s : List Char) (a b : Nat) :
    rotLe s a b = true ∨ rotLe s b a = true := by
  cases h : lexLt (rotAt s b) (rotAt s a) with
  | false => left; rw [rotLe, h]; rfl
  | true => right; rw [rotLe, lexLt_asymm _ _ h]; rfl

theorem rotLe_trans (s : List Char) (a b c : Nat)
    (h1 : rotLe s a b = true) (h2 : rotLe s b c = true) : rotLe s a c = true := by
  rw [rotLe, Bool.not_eq_true'] at h1 h2 ⊢
  exact lexLe_trans (rotAt s a) (rotAt s b) (rotAt s c) h1 h2

theorem rotOrder_perm (s : List Char) :
    (rotOrder s).Perm (List.range (s.length + 1)) :=
  insSort_perm _ _

theorem suffixArr_perm (s : List Char) :
    (suffixArr s).Perm (List.range (s.length + 1)) :=
  insSort_perm _ _

theorem rotOrder_length (s : List Char) : (rotOrder s).length = s.length + 1 :=
  (rotOrder_perm s).length_eq.trans (List.length_range _)

theorem suffixArr_length (s : List Char) : (suffixArr s).length = s.length + 1 :=
  (suffixArr_perm s).length_eq.trans (List.length_range _)

theorem rotOrder_getD_lt (s : List Char) (k : Nat) (hk : k < s.length + 1) :
    (rotOrder s).getD k 0 < s.length + 1 := by
  have hm : (rotOrder s).getD k 0 ∈ rotOrder s :=
    getD_mem _ _ _ (by rw [rotOrder_length]; exact hk)
  exact List.mem_range.mp ((rotOrder_perm s).mem_iff.mp hm)

theorem suffixArr_getD_lt (s : List Char) (k : Nat) (hk : k < s.length + 1) :
    (suffixArr s).getD k 0 < s.length + 1 := by
  have hm : (suffixArr s).getD k 0 ∈ suffixArr s :=
    getD_mem _ _ _ (by rw [suffixArr_length]; exact hk)
  exact List.mem_range.mp ((suffixArr_perm s).mem_iff.mp hm)

theorem rotOrder_strict (s : List Char) (hs : term ∉ s) (k k' : Nat)
    (hk : k < k') (hk' : k' < s.length + 1) :
    lexLt (rotAt s ((rotOrder s).getD k 0)) (rotAt s ((rotOrder s).getD k' 0)) = true := by
  have hlen : (rotOrder s).length = s.length + 1 := rotOrder_length s
  have hkk : k < (rotOrder s).length := by omega
  have hkk' : k' < (rotOrder s).length := by omega
  have hnodup : (rotOrder s).Nodup :=
    (rotOrder_perm s).nodup_iff.mpr (List.nodup_range _)
  have hpair : (rotOrder s).Pairwise (fun a b => rotLe s a b = true) :=
    insSort_pairwise (rotLe s) (rotLe_total s) (rotLe_trans s)
      (List.range (s.length + 1))
  rw [List.pairwise_iff_getElem] at hpair
  have hle := hpair k k' hkk hkk' hk
  have hne : (rotOrder s)[k] ≠ (rotOrder s)[k'] := by
    intro hEq
    exact absurd ((List.Nodup.getElem_inj_iff hnodup).mp hEq) (by omega)
  rw [rotLe, Bool.not_eq_true'] at hle
  have hgi : (rotOrder s).getD k 0 = (rotOrder s)[k] := List.getD_eq_getElem _ _ hkk
  have hgi' : (rotOrder s).getD k' 0 = (rotOrder s)[k'] := List.getD_eq_getElem _ _ hkk'
  rw [hgi, hgi']
  have hlt1 : (rotOrder s)[k] < s.length + 1 := by
    rw [← hgi]; exact rotOrder_getD_lt s k (by omega)
  have hlt2 : (rotOrder s)[k'] < s.length + 1 := by
    rw [← hgi']; exact rotOrder_getD_lt s k' (by omega)
  have hrne : rotAt s ((rotOrder s)[k]) ≠ rotAt s ((rotOrder s)[k']) :=
    fun hEq => hne (rotAt_inj s hs _ _ hlt1 hlt2 hEq)
  rcases lexLt_conn _ _ hrne with h1 | h1
  · exact h1
  · rw [h1] at hle
    exact Bool.noConfusion hle

theorem suffixArr_strict (s : List Char) (hs : term ∉ s) (k k' : Nat)
    (hk : k < k') (hk' : k' < s.length + 1) :
    lexLt (rotAt s ((suffixArr s).getD k 0)) (rotAt s ((suffixArr s).getD k' 0)) = true := by
  have hlen : (suffixArr s).length = s.length + 1 := suffixArr_length s
  have hkk : k < (suffixArr s).length := by omega
  have hkk' : k' < (suffixArr s).length := by omega
  have hnodup : (suffixArr s).Nodup :=
    (suffixArr_perm s).nodup_iff.mpr (List.nodup_range _)
  have hpair : (suffixArr s).Pairwise (fun a b => sfxLe s a b = true) :=
    insSort_pairwise (sfxLe s) (sfxLe_total s) (sfxLe_trans s)
      (List.range (s.length + 1))
  rw [List.pairwise_iff_getElem] at hpair
  have hle := hpair k k' hkk hkk' hk
  have hne : (suffixArr s)[k] ≠ (suffixArr s)[k'] := by
    intro hEq
    exact absurd ((List.Nodup.getElem_inj_iff hnodup).mp hEq) (by omega)
  rw [sfxLe, Bool.not_eq_true'] at hle
  have hgi : (suffixArr s).getD k 0 = (suffixArr s)[k] := List.getD_eq_getElem _ _ hkk
  have hgi' : (suffixArr s).getD k' 0 = (suffixArr s)[k'] := List.getD_eq_getElem _ _ hkk'
  rw [hgi, hgi']
  have hlt1 : (suffixArr s)[k] < s.length + 1 := by
    rw [← hgi]; exact suffixArr_getD_lt s k (by omega)
  have hlt2 : (suffixArr s)[k'] < s.length + 1 := by
    rw [← hgi']; exact suffixArr_getD_lt s k' (by omega)
  rw [lexLt_sfx_rot s hs _ _ hlt2 hlt1] at hle
  have hrne : rotAt s ((suffixArr s)[k]) ≠ rotAt s ((suffixArr s)[k']) :=
    fun hEq => hne (rotAt_inj s hs _ _ hlt1 hlt2 hEq)
  rcases lexLt_conn _ _ hrne with h1 | h1
  · exact h1
  · rw [h1] at hle
    exact Bool.noConfusion hle

end BWT

namespace BWT

theorem rankR_lt (s : List Char) (i : Nat) (hi : i < s.length + 1) :
    rankR s i < s.length + 1 := by
  have h := countP_lt_of (fun j => lexLt (rotAt s j) (rotAt s i)) (fun _ => true)
    (List.range (s.length + 1)) (fun x _ _ => rfl) i (List.mem_range.mpr hi)
    (lexLt_irrefl _) rfl
  rw [List.countP_true, List.length_range] at h
  exact h

theorem rankR_lt_of_lexLt (s : List Char) (i j : Nat) (hi : i < s.length + 1)
    (hlt : lexLt (rotAt s i) (rotAt s j) = true) : rankR s i < rankR s j :=
  countP_lt_of _ _ (List.range (s.length + 1))
    (fun _ _ hx => lexLt_trans _ _ _ hx hlt) i (List.mem_range.mpr hi)
    (lexLt_irrefl _) hlt

theorem rankR_inj (s : List Char) (hs : term ∉ s) (i j : Nat)
    (hi : i < s.length + 1) (hj : j < s.length + 1) (h : rankR s i = rankR s j) :
    i = j := by
  by_contra hne
  have hrne : rotAt s i ≠ rotAt s j :=
    fun hEq => hne (rotAt_inj s hs i j hi hj hEq)
  rcases lexLt_conn _ _ hrne with h1 | h1
  · have := rankR_lt_of_lexLt s i j hi h1
    omega
  · have := rankR_lt_of_lexLt s j i hj h1
    omega

theorem sorted_rank (s : List Char) (l : List Nat)
    (hperm : l.Perm (List.range (s.length + 1)))
    (hstrict : ∀ k k', k < k' → k' < s.length + 1 →
      lexLt (rotAt s (l.getD k 0)) (rotAt s (l.getD k' 0)) = true)
    (k : Nat) (hk : k < s.length + 1) : rankR s (l.getD k 0) = k := by
  have hlen : l.length = s.length + 1 := hperm.length_eq.trans (List.length_range _)
  rw [rankR, ← hperm.countP_eq, countP_positions _ l 0, hlen]
  have hcong : ∀ x ∈ List.range (s.length + 1),
      (lexLt (rotAt s (l.getD x 0)) (rotAt s (l.getD k 0)) = true ↔
        decide (x < k) = true) := by
    intro x hx
    have hxn := List.mem_range.mp hx
    constructor
    · intro h
      by_contra hge
      have hge' : k ≤ x := by simpa using hge
      rcases eq_or_lt_of_le hge' with hEq | hlt
      · rw [hEq, lexLt_irrefl] at h
        exact Bool.noConfusion h
      · have hxk := hstrict k x hlt hxn
        rw [lexLt_asymm _ _ hxk] at h
        exact Bool.noConfusion h
    · intro h
      exact hstrict x k (by simpa using h) hk
  rw [List.countP_congr hcong, countP_lt_range k _ (by omega)]

theorem sorted_getD_eq (s : List Char) (hs : term ∉ s) (l₁ l₂ : List Nat)
    (h₁perm : l₁.Perm (List.range (s.length + 1)))
    (h₁strict : ∀ k k', k < k' → k' < s.length + 1 →
      lexLt (rotAt s (l₁.getD k 0)) (rotAt s (l₁.getD k' 0)) = true)
    (h₂perm : l₂.Perm (List.range (s.length + 1)))
    (h₂strict : ∀ k k', k < k' → k' < s.length + 1 →
      lexLt (rotAt s (l₂.getD k 0)) (rotAt s (l₂.getD k' 0)) = true) :
    l₁ = l₂ := by
  have hlen₁ : l₁.length = s.length + 1 := h₁perm.length_eq.trans (List.length_range _)
  have hlen₂ : l₂.length = s.length + 1 := h₂perm.length_eq.trans (List.length_range _)
  apply list_eq_of_getD _ _ 0 (by omega)
  intro k hk
  have hk' : k < s.length + 1 := by omega
  have hm₁ : l₁.getD k 0 < s.length + 1 :=
    List.mem_range.mp (h₁perm.mem_iff.mp (getD_mem _ _ _ (by omega)))
  have hm₂ : l₂.getD k 0 < s.length + 1 :=
    List.mem_range.mp (h₂perm.mem_iff.mp (getD_mem _ _ _ (by omega)))
  apply rankR_inj s hs _ _ hm₁ hm₂
  rw [sorted_rank s l₁ h₁perm h₁strict k hk', sorted_rank s l₂ h₂perm h₂strict k hk']

theorem suffixArr_eq_rotOrder (s : List Char) (hs : term ∉ s) :
    suffixArr s = rotOrder s :=
  sorted_getD_eq s hs _ _ (suffixArr_perm s)
    (fun k k' hk hk' => suffixArr_strict s hs k k' hk hk')
    (rotOrder_perm s)
    (fun k k' hk hk' => rotOrder_strict s hs k k' hk hk')

theorem rotOrder_rank (s : List Char) (hs : term ∉ s) (k : Nat)
    (hk : k < s.length + 1) : rankR s ((rotOrder s).getD k 0) = k :=
  sorted_rank s (rotOrder s) (rotOrder_perm s)
    (fun k k' h h' => rotOrder_strict s hs k k' h h') k hk

theorem rotOrder_getD_rankR (s : List Char) (hs : term ∉ s) (i : Nat)
    (hi : i < s.length + 1) : (rotOrder s).getD (rankR s i) 0 = i := by
  have h1 : rankR s i < s.length + 1 := rankR_lt s i hi
  have h2 := rotOrder_rank s hs (rankR s i) h1
  exact rankR_inj s hs _ _ (rotOrder_getD_lt s _ h1) hi h2

theorem bwTransform_eq_transformRot (s : List Char) (hs : term ∉ s) :
    bwTransform s = transformRot s := by
  rw [bwTransform, transformRot, suffixArr_eq_rotOrder s hs]
  apply List.map_congr_left
  intro p hp
  have hpn : p < s.length + 1 :=
    List.mem_range.mp ((rotOrder_perm s).mem_iff.mp hp)
  by_cases hp0 : p = 0
  · subst hp0
    rw [if_pos rfl, pIdx_zero, extSeq_getD_last]
  · rw [if_neg hp0, pIdx_of_pos s.length p (by omega) hpn,
      extSeq_getD_lt s (p - 1) (by omega)]

end BWT

namespace BWT

theorem map_lastCh_range (s : List Char) :
    (List.range (s.length + 1)).map (lastCh s) = term :: s := by
  apply list_eq_of_getD _ _ term
  · rw [List.length_map, List.length_range, List.length_cons]
  · intro k hk
    rw [List.length_map, List.length_range] at hk
    have hgd : ((List.range (s.length + 1)).map (lastCh s)).getD k term = lastCh s k := by
      rw [List.getD_eq_getElem _ _ (by rw [List.length_map, List.length_range]; omega),
        List.getElem_map, List.getElem_range]
    rw [hgd]
    cases k with
    | zero => rw [lastCh, pIdx_zero, extSeq_getD_last, List.getD_cons_zero]
    | succ k =>
      rw [lastCh, pIdx_of_pos s.length (k + 1) (by omega) hk, List.getD_cons_succ]
      have hk1 : k + 1 - 1 = k := rfl
      rw [hk1, extSeq_getD_lt s k (by omega)]

theorem transformRot_length (s : List Char) :
    (transformRot s).length = s.length + 1 := by
  rw [transformRot, List.length_map, rotOrder_length]

theorem transformRot_perm (s : List Char) :
    (transformRot s).Perm (term :: s) := by
  rw [transformRot_eq_map]
  have h1 : ((rotOrder s).map (lastCh s)).Perm
      ((List.range (s.length + 1)).map (lastCh s)) := (rotOrder_perm s).map _
  rwa [map_lastCh_range] at h1

theorem transformRot_getD (s : List Char) (k : Nat) (hk : k < s.length + 1) :
    (transformRot s).getD k term = lastCh s ((rotOrder s).getD k 0) := by
  rw [transformRot_eq_map,
    List.getD_eq_getElem _ _ (by rw [List.length_map, rotOrder_length]; omega),
    List.getElem_map]
  congr 1
  rw [List.getD_eq_getElem _ _ (by rw [rotOrder_length]; omega)]

theorem count_term_transformRot (s : List Char) (hs : term ∉ s) :
    (transformRot s).count term = 1 := by
  rw [(transformRot_perm s).count_eq, List.count_cons_self,
    List.count_eq_zero.mpr hs]

theorem cTab_transformRot (s : List Char) (c : Char) :
    cTab (transformRot s) c =
      List.countP (fun q => decide ((extSeq s).getD q term < c))
        (List.range (s.length + 1)) := by
  rw [cTab, (transformRot_perm s).countP_eq]
  have h1 : (term :: s).Perm (extSeq s) := (List.perm_append_singleton term s).symm
  rw [h1.countP_eq, countP_positions _ (extSeq s) term, extSeq_length]

theorem beq_eq_decide_char (a b : Char) : (a == b) = decide (a = b) := by
  cases h : decide (a = b) <;> simp_all

theorem pTab_transformRot (s : List Char) (j : Nat) (hj : j < s.length + 1) :
    pTab (transformRot s) j =
      List.countP
        (fun k => decide (lastCh s ((rotOrder s).getD k 0) =
          lastCh s ((rotOrder s).getD j 0)))
        (List.range j) := by
  rw [pTab, transformRot_getD s j hj, List.count_eq_countP, transformRot_eq_map,
    ← List.map_take, List.countP_map]
  have hlen : ((rotOrder s).take j).length = j := by
    rw [List.length_take, rotOrder_length]
    omega
  rw [countP_positions _ ((rotOrder s).take j) 0, hlen]
  apply List.countP_congr
  intro k hk
  have hkj : k < j := List.mem_range.mp hk
  have hgd : ((rotOrder s).take j).getD k 0 = (rotOrder s).getD k 0 := by
    rw [List.getD_eq_getElem _ _ (by omega),
      List.getD_eq_getElem _ _ (by rw [rotOrder_length]; omega)]
    exact List.getElem_take _
  rw [hgd]
  simp only [Function.comp]
  rw [beq_eq_decide_char]

end BWT

namespace BWT

theorem rotAt_ne_nil (s : List Char) (i : Nat) : rotAt s i ≠ [] :=
  List.ne_nil_of_length_pos (by rw [rotAt_length]; omega)

theorem lexLt_dropLast_rot (s : List Char) (hs : term ∉ s) (a b : Nat)
    (ha : a < s.length + 1) (hb : b < s.length + 1) :
    lexLt ((rotAt s a).dropLast) ((rotAt s b).dropLast) =
      lexLt (rotAt s a) (rotAt s b) := by
  by_cases hab : a = b
  · subst hab
    rw [lexLt_irrefl, lexLt_irrefl]
  · have hna : rotAt s a ≠ [] := rotAt_ne_nil s a
    have hnb : rotAt s b ≠ [] := rotAt_ne_nil s b
    have hdne : (rotAt s a).dropLast ≠ (rotAt s b).dropLast :=
      fun h => hab (dropLast_rotAt_inj s hs a b ha hb h)
    have hlen : (rotAt s a).dropLast.length = (rotAt s b).dropLast.length := by
      rw [List.length_dropLast, List.length_dropLast, rotAt_length, rotAt_length]
    have h1 : isPref (rotAt s a).dropLast (rotAt s b).dropLast = false :=
      isPref_of_ne _ _ hlen hdne
    have h2 : isPref (rotAt s b).dropLast (rotAt s a).dropLast = false :=
      isPref_of_ne _ _ hlen.symm (fun h => hdne h.symm)
    calc lexLt (rotAt s a).dropLast (rotAt s b).dropLast
        = lexLt ((rotAt s a).dropLast ++ [(rotAt s a).getLast hna])
            ((rotAt s b).dropLast ++ [(rotAt s b).getLast hnb]) :=
          (lexLt_append _ _ _ _ h1 h2).symm
      _ = lexLt (rotAt s a) (rotAt s b) := by
          rw [List.dropLast_append_getLast, List.dropLast_append_getLast]

theorem lastCh_sIdx (s : List Char) (q : Nat) (hq : q < s.length + 1) :
    lastCh s ((q + 1) % (s.length + 1)) = (extSeq s).getD q term := by
  rw [lastCh, pIdx_sIdx s.length q hq]

theorem lexLt_rot_pred_iff (s : List Char) (hs : term ∉ s) (q p : Nat)
    (hq : q < s.length + 1) (hp : p < s.length + 1) :
    lexLt (rotAt s q) (rotAt s ((p + s.length) % (s.length + 1))) =
      (decide ((extSeq s).getD q term < lastCh s p) ||
        (decide ((extSeq s).getD q term = lastCh s p) &&
          lexLt (rotAt s ((q + 1) % (s.length + 1))) (rotAt s p))) := by
  conv_lhs => rw [rotAt_succ s q hq, rotAt_pred s p hp, lexLt_cons]
  by_cases hxc : (extSeq s).getD q term < lastCh s p
  · rw [if_pos hxc, decide_eq_true hxc, Bool.true_or]
  · by_cases hcx : lastCh s p < (extSeq s).getD q term
    · have hne : ¬ (extSeq s).getD q term = lastCh s p := ne_of_gt hcx
      rw [if_neg hxc, if_pos hcx, decide_eq_false hxc, decide_eq_false hne,
        Bool.false_or, Bool.false_and]
    · have hEq : (extSeq s).getD q term = lastCh s p :=
        le_antisymm (not_lt.mp hcx) (not_lt.mp hxc)
      rw [if_neg hxc, if_neg hcx, decide_eq_false hxc, decide_eq_true hEq,
        Bool.false_or, Bool.true_and]
      exact lexLt_dropLast_rot s hs _ _ (Nat.mod_lt _ (Nat.succ_pos _)) hp

theorem lexLt_rotOrder_lt (s : List Char) (hs : term ∉ s) (k j : Nat)
    (hk : k < s.length + 1) (hj : j < s.length + 1) :
    lexLt (rotAt s ((rotOrder s).getD k 0)) (rotAt s ((rotOrder s).getD j 0)) =
      decide (k < j) := by
  rcases Nat.lt_trichotomy k j with h | h | h
  · rw [rotOrder_strict s hs k j h hj, decide_eq_true h]
  · subst h
    rw [lexLt_irrefl, decide_eq_false (lt_irrefl k)]
  · rw [lexLt_asymm _ _ (rotOrder_strict s hs j k h hk),
      decide_eq_false (Nat.not_lt.mpr (Nat.le_of_lt h))]

theorem map_sIdx_perm (N : Nat) :
    ((List.range (N + 1)).map (fun q => (q + 1) % (N + 1))).Perm
      (List.range (N + 1)) := by
  have hEq : (List.range (N + 1)).map (fun q => (q + 1) % (N + 1)) =
      (List.range N).map (fun q => q + 1) ++ [0] := by
    rw [List.range_succ, List.map_append]
    congr 1
    · apply List.map_congr_left
      intro x hx
      exact Nat.mod_eq_of_lt (by have := List.mem_range.mp hx; omega)
    · simp [Nat.mod_self]
  rw [hEq]
  refine (List.perm_append_singleton 0 _).trans ?_
  have h3 : (0 : Nat) :: (List.range N).map (fun q => q + 1) = List.range (N + 1) := by
    rw [List.range_succ_eq_map]
  rw [h3]

end BWT

namespace BWT

theorem lfT_transformRot (s : List Char) (hs : term ∉ s) (j : Nat)
    (hj : j < s.length + 1) :
    lfT (transformRot s) j =
      rankR s (((rotOrder s).getD j 0 + s.length) % (s.length + 1)) := by
  have hsig : (rotOrder s).getD j 0 < s.length + 1 := rotOrder_getD_lt s j hj
  have hsplit : rankR s (((rotOrder s).getD j 0 + s.length) % (s.length + 1)) =
      List.countP
        (fun q => decide ((extSeq s).getD q term < lastCh s ((rotOrder s).getD j 0)))
        (List.range (s.length + 1)) +
      List.countP
        (fun q => decide ((extSeq s).getD q term = lastCh s ((rotOrder s).getD j 0)) &&
          lexLt (rotAt s ((q + 1) % (s.length + 1))) (rotAt s ((rotOrder s).getD j 0)))
        (List.range (s.length + 1)) := by
    rw [rankR]
    calc
      List.countP
          (fun q => lexLt (rotAt s q)
            (rotAt s (((rotOrder s).getD j 0 + s.length) % (s.length + 1))))
          (List.range (s.length + 1)) =
        List.countP
          (fun q =>
            decide ((extSeq s).getD q term < lastCh s ((rotOrder s).getD j 0)) ||
            (decide ((extSeq s).getD q term = lastCh s ((rotOrder s).getD j 0)) &&
              lexLt (rotAt s ((q + 1) % (s.length + 1)))
                (rotAt s ((rotOrder s).getD j 0))))
          (List.range (s.length + 1)) := by
        apply List.countP_congr
        intro q hq
        rw [lexLt_rot_pred_iff s hs q _ (List.mem_range.mp hq) hsig]
      _ = _ := by
        apply countP_disjoint
        intro q _ hA
        have hlt : (extSeq s).getD q term < lastCh s ((rotOrder s).getD j 0) :=
          of_decide_eq_true hA
        rw [decide_eq_false (ne_of_lt hlt), Bool.false_and]
  have hstep3 :
      List.countP
        (fun q => decide ((extSeq s).getD q term = lastCh s ((rotOrder s).getD j 0)) &&
          lexLt (rotAt s ((q + 1) % (s.length + 1))) (rotAt s ((rotOrder s).getD j 0)))
        (List.range (s.length + 1)) = pTab (transformRot s) j := by
    calc
      List.countP
          (fun q => decide ((extSeq s).getD q term = lastCh s ((rotOrder s).getD j 0)) &&
            lexLt (rotAt s ((q + 1) % (s.length + 1))) (rotAt s ((rotOrder s).getD j 0)))
          (List.range (s.length + 1)) =
        List.countP
          ((fun m => decide (lastCh s m = lastCh s ((rotOrder s).getD j 0)) &&
            lexLt (rotAt s m) (rotAt s ((rotOrder s).getD j 0))) ∘
            (fun q => (q + 1) % (s.length + 1)))
          (List.range (s.length + 1)) := by
        apply List.countP_congr
        intro q hq
        simp only [Function.comp]
        rw [lastCh_sIdx s q (List.mem_range.mp hq)]
      _ = List.countP
          (fun m => decide (lastCh s m = lastCh s ((rotOrder s).getD j 0)) &&
            lexLt (rotAt s m) (rotAt s ((rotOrder s).getD j 0)))
          ((List.range (s.length + 1)).map (fun q => (q + 1) % (s.length + 1))) :=
        (List.countP_map _ _ _).symm
      _ = List.countP
          (fun m => decide (lastCh s m = lastCh s ((rotOrder s).getD j 0)) &&
            lexLt (rotAt s m) (rotAt s ((rotOrder s).getD j 0)))
          (List.range (s.length + 1)) := (map_sIdx_perm s.length).countP_eq _
      _ = List.countP
          (fun m => decide (lastCh s m = lastCh s ((rotOrder s).getD j 0)) &&
            lexLt (rotAt s m) (rotAt s ((rotOrder s).getD j 0)))
          (rotOrder s) := ((rotOrder_perm s).countP_eq _).symm
      _ = List.countP
          (fun k => decide (lastCh s ((rotOrder s).getD k 0) =
              lastCh s ((rotOrder s).getD j 0)) &&
            lexLt (rotAt s ((rotOrder s).getD k 0)) (rotAt s ((rotOrder s).getD j 0)))
          (List.range (rotOrder s).length) := countP_positions _ (rotOrder s) 0
      _ = List.countP
          (fun k => decide (lastCh s ((rotOrder s).getD k 0) =
              lastCh s ((rotOrder s).getD j 0)) && decide (k < j))
          (List.range (s.length + 1)) := by
        rw [rotOrder_length]
        apply List.countP_congr
        intro k hk
        rw [lexLt_rotOrder_lt s hs k j (List.mem_range.mp hk) hj]
      _ = List.countP
          (fun k => decide (lastCh s ((rotOrder s).getD k 0) =
              lastCh s ((rotOrder s).getD j 0)))
          (List.range j) := countP_and_lt_range _ j _ (by omega)
      _ = pTab (transformRot s) j := (pTab_transformRot s j hj).symm
  rw [lfT, transformRot_getD s j hj, hsplit, hstep3, cTab_transformRot]

end BWT

namespace BWT

theorem lfT_lt (s : List Char) (hs : term ∉ s) (j : Nat) (hj : j < s.length + 1) :
    lfT (transformRot s) j < s.length + 1 := by
  rw [lfT_transformRot s hs j hj]
  exact rankR_lt s _ (pIdx_lt _ _)

theorem rotOrder_getD_lfT (s : List Char) (hs : term ∉ s) (j : Nat)
    (hj : j < s.length + 1) :
    (rotOrder s).getD (lfT (transformRot s) j) 0 =
      ((rotOrder s).getD j 0 + s.length) % (s.length + 1) := by
  rw [lfT_transformRot s hs j hj]
  exact rotOrder_getD_rankR s hs _ (pIdx_lt _ _)

theorem idxTerm_spec (y : List Char) (hy : term ∈ y) :
    idxTerm y < y.length ∧ y.getD (idxTerm y) term = term := by
  induction y with
  | nil => cases hy
  | cons c l ih =>
    by_cases hc : c = term
    · rw [idxTerm, if_pos hc]
      exact ⟨by simp, by rw [List.getD_cons_zero, hc]⟩
    · rw [idxTerm, if_neg hc]
      have hy' : term ∈ l := by
        rcases List.mem_cons.mp hy with h | h
        · exact absurd h.symm hc
        · exact h
      obtain ⟨h1, h2⟩ := ih hy'
      exact ⟨by simp only [List.length_cons]; omega, by rw [List.getD_cons_succ]; exact h2⟩

theorem term_mem_transformRot (s : List Char) (hs : term ∉ s) :
    term ∈ transformRot s :=
  List.count_pos_iff.mp (by rw [count_term_transformRot s hs]; omega)

theorem rotOrder_getD_idxTerm (s : List Char) (hs : term ∉ s) :
    (rotOrder s).getD (idxTerm (transformRot s)) 0 = 0 := by
  obtain ⟨hlt, hterm⟩ := idxTerm_spec _ (term_mem_transformRot s hs)
  rw [transformRot_length] at hlt
  rw [transformRot_getD s _ hlt, lastCh] at hterm
  have h1 := (extSeq_getD_term_iff s hs _ (pIdx_lt _ _)).mp hterm
  exact (pIdx_eq_last_iff s.length _ (rotOrder_getD_lt s _ hlt)).mp h1

theorem idxTerm_transformRot_lt (s : List Char) (hs : term ∉ s) :
    idxTerm (transformRot s) < s.length + 1 := by
  have h := (idxTerm_spec _ (term_mem_transformRot s hs)).1
  rwa [transformRot_length] at h

theorem lfT_iter (s : List Char) (hs : term ∉ s) (m : Nat) (hm : m ≤ s.length) :
    (lfT (transformRot s))^[m] (idxTerm (transformRot s)) < s.length + 1 ∧
    (rotOrder s).getD ((lfT (transformRot s))^[m] (idxTerm (transformRot s))) 0 =
      (s.length + 1 - m) % (s.length + 1) := by
  induction m with
  | zero =>
    rw [Function.iterate_zero_apply]
    refine ⟨idxTerm_transformRot_lt s hs, ?_⟩
    rw [Nat.sub_zero, Nat.mod_self]
    exact rotOrder_getD_idxTerm s hs
  | succ m ih =>
    obtain ⟨h1, h2⟩ := ih (by omega)
    rw [Function.iterate_succ_apply']
    refine ⟨lfT_lt s hs _ h1, ?_⟩
    rw [rotOrder_getD_lfT s hs _ h1, h2]
    by_cases hm0 : m = 0
    · subst hm0
      rw [Nat.sub_zero, Nat.mod_self, pIdx_zero]
      have hN : s.length + 1 - 1 = s.length := by omega
      rw [hN, Nat.mod_eq_of_lt (by omega)]
    · have h3 : (s.length + 1 - m) % (s.length + 1) = s.length + 1 - m :=
        Nat.mod_eq_of_lt (by omega)
      rw [h3]
      have h4 : s.length + 1 - m + s.length =
          (s.length + 1 - (m + 1)) + (s.length + 1) := by omega
      rw [h4, Nat.add_mod_right]

theorem walkIdx_length (y : List Char) (m i : Nat) : (walkIdx y m i).length = m := by
  induction m generalizing i with
  | zero => rfl
  | succ m ih => rw [walkIdx, List.length_cons, ih]

theorem walkIdx_getD (y : List Char) (m i k : Nat) (hk : k < m) :
    (walkIdx y m i).getD k 0 = (lfT y)^[k + 1] i := by
  induction m generalizing i k with
  | zero => omega
  | succ m ih =>
    cases k with
    | zero =>
      rw [walkIdx, List.getD_cons_zero, Function.iterate_one]
    | succ k =>
      rw [walkIdx, List.getD_cons_succ, ih _ k (by omega),
        ← Function.iterate_succ_apply]

theorem bwInverse_transformRot (s : List Char) (hs : term ∉ s) :
    bwInverse (transformRot s) = s := by
  rw [bwInverse, transformRot_length]
  have hN : s.length + 1 - 1 = s.length := by omega
  rw [hN]
  have hmap : (walkIdx (transformRot s) s.length (idxTerm (transformRot s))).map
      (fun i => (transformRot s).getD i term) = s.reverse := by
    apply list_eq_of_getD _ _ term
    · rw [List.length_map, walkIdx_length, List.length_reverse]
    · intro k hk
      rw [List.length_map, walkIdx_length] at hk
      have hwl : (walkIdx (transformRot s) s.length (idxTerm (transformRot s))).getD k 0 =
          (lfT (transformRot s))^[k + 1] (idxTerm (transformRot s)) :=
        walkIdx_getD _ _ _ k hk
      have hgd : ((walkIdx (transformRot s) s.length (idxTerm (transformRot s))).map
          (fun i => (transformRot s).getD i term)).getD k term =
          (transformRot s).getD
            ((walkIdx (transformRot s) s.length (idxTerm (transformRot s))).getD k 0)
            term := by
        rw [List.getD_eq_getElem _ _ (by rw [List.length_map, walkIdx_length]; omega),
          List.getElem_map]
        congr 1
        rw [List.getD_eq_getElem _ _ (by rw [walkIdx_length]; omega)]
      rw [hgd, hwl]
      obtain ⟨hlt, hsig⟩ := lfT_iter s hs (k + 1) (by omega)
      rw [transformRot_getD s _ hlt, lastCh, hsig]
      have h1 : (s.length + 1 - (k + 1)) % (s.length + 1) = s.length - k := by
        rw [Nat.mod_eq_of_lt (by omega)]
        omega
      rw [h1, pIdx_of_pos s.length (s.length - k) (by omega) (by omega),
        extSeq_getD_lt s _ (by omega)]
      have hidx : s.length - k - 1 = s.length - 1 - k := by omega
      have h5 : s.reverse.getD k term = s.getD (s.length - 1 - k) term := by
        rw [@List.getD_eq_getElem _ s.reverse term k (by rw [List.length_reverse]; omega),
          @List.getD_eq_getElem _ s term (s.length - 1 - k) (by omega),
          List.getElem_reverse]
      rw [hidx, h5]
  rw [hmap, List.reverse_reverse]

end BWT

namespace BWT

theorem bwInverse_bwTransform (s : List Char) (hs : term ∉ s) :
    bwInverse (bwTransform s) = s := by
  rw [bwTransform_eq_transformRot s hs, bwInverse_transformRot s hs]

theorem count_term_bwTransform (s : List Char) (hs : term ∉ s) :
    (bwTransform s).count term = 1 := by
  rw [bwTransform_eq_transformRot s hs]
  exact count_term_transformRot s hs

theorem bwTransform_length (s : List Char) :
    (bwTransform s).length = s.length + 1 := by
  rw [bwTransform, List.length_map, suffixArr_length]

theorem bwInverse_length (y : List Char) : (bwInverse y).length = y.length - 1 := by
  rw [bwInverse, List.length_reverse, List.length_map, walkIdx_length]

theorem bwTransformE_ok (s : List Char) (hs : term ∉ s) :
    bwTransformE (PyObj.str s) = Except.ok (bwTransform s) := by
  rw [bwTransformE, if_neg hs]

theorem bwInverseE_ok (y : List Char) (hy : y.count term = 1) :
    bwInverseE (PyObj.str y) = Except.ok (bwInverse y) := by
  rw [bwInverseE, if_neg (by omega), if_neg (by omega)]

theorem bwTransform_term_pos (s : List Char) (hs : term ∉ s) (k : Nat)
    (hk : k < s.length + 1) :
    ((bwTransform s).getD k term = term ↔ (rotOrder s).getD k 0 = 0) := by
  rw [bwTransform_eq_transformRot s hs, transformRot_getD s k hk, lastCh,
    extSeq_getD_term_iff s hs _ (pIdx_lt _ _)]
  exact pIdx_eq_last_iff s.length _ (rotOrder_getD_lt s k hk)

theorem sIdx_pIdx (N p : Nat) (hp : p < N + 1) :
    ((p + N) % (N + 1) + 1) % (N + 1) = p := by
  by_cases h0 : p = 0
  · subst h0
    rw [pIdx_zero, Nat.mod_self]
  · rw [pIdx_of_pos N p (by omega) hp]
    have h1 : p - 1 + 1 = p := by omega
    rw [h1]
    exact Nat.mod_eq_of_lt hp

theorem pIdx_inj (N p q : Nat) (hp : p < N + 1) (hq : q < N + 1)
    (h : (p + N) % (N + 1) = (q + N) % (N + 1)) : p = q := by
  have h1 := congrArg (fun x => (x + 1) % (N + 1)) h
  simp only at h1
  rwa [sIdx_pIdx N p hp, sIdx_pIdx N q hq] at h1

theorem rotOrder_getD_inj (s : List Char) (hs : term ∉ s) (a b : Nat)
    (ha : a < s.length + 1) (hb : b < s.length + 1)
    (h : (rotOrder s).getD a 0 = (rotOrder s).getD b 0) : a = b := by
  have h1 := rotOrder_rank s hs a ha
  rw [h, rotOrder_rank s hs b hb] at h1
  exact h1.symm

theorem lfT_inj_transformRot (s : List Char) (hs : term ∉ s) (a b : Nat)
    (ha : a < s.length + 1) (hb : b < s.length + 1)
    (h : lfT (transformRot s) a = lfT (transformRot s) b) : a = b := by
  have hA := rotOrder_getD_lfT s hs a ha
  rw [h, rotOrder_getD_lfT s hs b hb] at hA
  exact rotOrder_getD_inj s hs a b ha hb
    (pIdx_inj s.length _ _ (rotOrder_getD_lt s a ha) (rotOrder_getD_lt s b hb) hA.symm)

theorem lfT_iter_full (s : List Char) (hs : term ∉ s) :
    (lfT (transformRot s))^[s.length + 1] (idxTerm (transformRot s)) =
      idxTerm (transformRot s) := by
  obtain ⟨h1, h2⟩ := lfT_iter s hs s.length (le_refl _)
  rw [Function.iterate_succ_apply']
  have hsig : (rotOrder s).getD
      (lfT (transformRot s)
        ((lfT (transformRot s))^[s.length] (idxTerm (transformRot s)))) 0 = 0 := by
    rw [rotOrder_getD_lfT s hs _ h1, h2, Nat.mod_add_mod]
    have hsub : s.length + 1 - s.length = 1 := by omega
    rw [hsub, Nat.add_comm, Nat.mod_self]
  apply rotOrder_getD_inj s hs _ _ (lfT_lt s hs _ h1) (idxTerm_transformRot_lt s hs)
  rw [hsig, rotOrder_getD_idxTerm s hs]

theorem lfCycle_transformRot (s : List Char) (hs : term ∉ s) :
    lfCycle (transformRot s) := by
  constructor
  · rw [transformRot_length]
    exact lfT_iter_full s hs
  · intro m hm0 hmn hEq
    rw [transformRot_length] at hmn
    obtain ⟨h1, h2⟩ := lfT_iter s hs m (by omega)
    rw [hEq, rotOrder_getD_idxTerm s hs] at h2
    rw [Nat.mod_eq_of_lt (by omega)] at h2
    omega

theorem lfCycle_bwTransform (s : List Char) (hs : term ∉ s) :
    lfCycle (bwTransform s) := by
  rw [bwTransform_eq_transformRot s hs]
  exact lfCycle_transformRot s hs

theorem lfT_inj_bwTransform (s : List Char) (hs : term ∉ s) (a b : Nat)
    (ha : a < (bwTransform s).length) (hb : b < (bwTransform s).length)
    (h : lfT (bwTransform s) a = lfT (bwTransform s) b) : a = b := by
  rw [bwTransform_length] at ha hb
  rw [bwTransform_eq_transformRot s hs] at h
  exact lfT_inj_transformRot s hs a b ha hb h

theorem lfT_lt_bwTransform (s : List Char) (hs : term ∉ s) (j : Nat)
    (hj : j < (bwTransform s).length) :
    lfT (bwTransform s) j < (bwTransform s).length := by
  rw [bwTransform_length] at hj ⊢
  rw [bwTransform_eq_transformRot s hs]
  exact lfT_lt s hs j hj

end BWT

namespace BWT

theorem presentMsg_ne_missingMsg : presentMsg ≠ missingMsg := by decide

theorem presentMsg_ne_dupMsg : presentMsg ≠ dupMsg := by decide

theorem missingMsg_ne_dupMsg : missingMsg ≠ dupMsg := by decide

theorem bwTransformE_not_str (x : PyObj) (hx : ∀ s : List Char, x ≠ PyObj.str s) :
    bwTransformE x = Except.error (PyError.typeError typeMsg) := by
  cases x with
  | str s => exact absurd rfl (hx s)
  | int n => rfl
  | list xs => rfl
  | none => rfl

theorem bwInverseE_not_str (x : PyObj) (hx : ∀ s : List Char, x ≠ PyObj.str s) :
    bwInverseE x = Except.error (PyError.typeError typeMsg) := by
  cases x with
  | str s => exact absurd rfl (hx s)
  | int n => rfl
  | list xs => rfl
  | none => rfl

end BWT

namespace BWT

/-- C1: for every sequence s whose symbols do not include the terminator
(empty sequence included), applying the forward transform and then the
inverse transform returns the original sequence unchanged: the forward
call succeeds, its output passes the inverse validation, and the inverse
returns exactly s. -/
theorem claim1_roundtrip (s : List Char) (hs : term ∉ s) :
    bwTransformE (PyObj.str s) = Except.ok (bwTransform s) ∧
    bwInverseE (PyObj.str (bwTransform s)) = Except.ok s := by
  refine ⟨bwTransformE_ok s hs, ?_⟩
  rw [bwInverseE_ok _ (count_term_bwTransform s hs), bwInverse_bwTransform s hs]

/-- Witness for C1 at the concrete terminator-free input "ab". -/
theorem claim1_witness :
    bwTransformE (PyObj.str ['a', 'b']) = Except.ok (bwTransform ['a', 'b']) ∧
    bwInverseE (PyObj.str (bwTransform ['a', 'b'])) = Except.ok ['a', 'b'] :=
  claim1_roundtrip ['a', 'b'] (by decide)

/-- C2: the recorded concrete values with terminator-character dollar:
transform "googol" = "lo$oogg" and back, transform "acctg" = "g$actc" and
back, and the empty sequence maps to the terminator alone and back. -/
theorem claim2_concrete :
    bwTransformE (PyObj.str "googol".toList) = Except.ok "lo$oogg".toList ∧
    bwInverseE (PyObj.str "lo$oogg".toList) = Except.ok "googol".toList ∧
    bwTransformE (PyObj.str "acctg".toList) = Except.ok "g$actc".toList ∧
    bwInverseE (PyObj.str "g$actc".toList) = Except.ok "acctg".toList ∧
    bwTransformE (PyObj.str []) = Except.ok [term] ∧
    bwInverseE (PyObj.str [term]) = Except.ok [] :=
  ⟨rfl, rfl, rfl, rfl, rfl, rfl⟩

/-- C3: for every terminator-free input of length N the transform has
length N+1, contains the terminator exactly once, and the terminator sits
at the output index whose entry in Rotation Order is the rotation with
offset 0; and for every valid inverse input t the inverse has length
|t| - 1. -/
theorem claim3_lengths :
    (∀ s : List Char, term ∉ s →
      (bwTransform s).length = s.length + 1 ∧
      (bwTransform s).count term = 1 ∧
      (∀ k, k < s.length + 1 →
        ((bwTransform s).getD k term = term ↔ (rotOrder s).getD k 0 = 0))) ∧
    (∀ y : List Char, y.count term = 1 → (bwInverse y).length = y.length - 1) := by
  constructor
  · intro s hs
    exact ⟨bwTransform_length s, count_term_bwTransform s hs,
      fun k hk => bwTransform_term_pos s hs k hk⟩
  · intro y _
    exact bwInverse_length y

/-- Witness for C3 at the concrete inputs "ab" and "a$". -/
theorem claim3_witness :
    ((bwTransform ['a', 'b']).length = ['a', 'b'].length + 1 ∧
      (bwTransform ['a', 'b']).count term = 1 ∧
      (∀ k, k < ['a', 'b'].length + 1 →
        ((bwTransform ['a', 'b']).getD k term = term ↔
          (rotOrder ['a', 'b']).getD k 0 = 0))) ∧
    (bwInverse ['a', '$']).length = ['a', '$'].length - 1 :=
  ⟨claim3_lengths.1 ['a', 'b'] (by decide), claim3_lengths.2 ['a', '$'] (by decide)⟩

/-- C4, as stated, is false on the code: the inverse accepts any sequence
with exactly one terminator, but on the input "a$b" the decoded output
"$a" contains the terminator, so re-applying the forward transform fails
instead of reproducing "a$b". -/
theorem claim4_counterexample :
    (['a', '$', 'b'] : List Char).count term = 1 ∧
    bwInverseE (PyObj.str ['a', '$', 'b']) = Except.ok ['$', 'a'] ∧
    bwTransformE (PyObj.str ['$', 'a']) ≠ Except.ok ['a', '$', 'b'] := by
  refine ⟨by decide, rfl, ?_⟩
  intro h
  rw [show bwTransformE (PyObj.str ['$', 'a']) =
      Except.error (PyError.terminatorError presentMsg) from rfl] at h
  exact Except.noConfusion h

/-- C4, amended: for every transformed sequence t that actually lies in
the image of the forward transform, the inverse accepts t and re-applying
the forward transform to the decoded value reproduces t exactly. -/
theorem claim4_amended (t : List Char) (h : ∃ s, term ∉ s ∧ bwTransform s = t) :
    ∃ v, bwInverseE (PyObj.str t) = Except.ok v ∧
      bwTransformE (PyObj.str v) = Except.ok t := by
  obtain ⟨s, hs, ht⟩ := h
  subst ht
  refine ⟨s, ?_, bwTransformE_ok s hs⟩
  rw [bwInverseE_ok _ (count_term_bwTransform s hs), bwInverse_bwTransform s hs]

/-- Witness for the amended C4 at t = transform "ab". -/
theorem claim4_witness :
    ∃ v, bwInverseE (PyObj.str (bwTransform ['a', 'b'])) = Except.ok v ∧
      bwTransformE (PyObj.str v) = Except.ok (bwTransform ['a', 'b']) :=
  claim4_amended (bwTransform ['a', 'b']) ⟨['a', 'b'], by decide, rfl⟩

/-- C5: the forward transform fails with the TypeError exactly when the
input is not a string (the module's realization of a sequence of symbols,
see C10), fails with the terminator-present TerminatorError exactly when
the terminator occurs in the input string, and returns a result on every
terminator-free string: it has no other failure mode. -/
theorem claim5_forward_errors (x : PyObj) :
    (bwTransformE x = Except.error (PyError.typeError typeMsg) ↔
      ∀ s : List Char, x ≠ PyObj.str s) ∧
    (bwTransformE x = Except.error (PyError.terminatorError presentMsg) ↔
      ∃ s : List Char, x = PyObj.str s ∧ term ∈ s) ∧
    ((∃ y, bwTransformE x = Except.ok y) ↔
      ∃ s : List Char, x = PyObj.str s ∧ term ∉ s) := by
  cases x
  case str s =>
    by_cases hmem : term ∈ s
    · have hE : bwTransformE (PyObj.str s) =
          Except.error (PyError.terminatorError presentMsg) := by
        rw [bwTransformE, if_pos hmem]
      refine ⟨?_, ?_, ?_⟩
      · rw [hE]
        apply iff_of_false
        · intro h
          exact PyError.noConfusion (Except.error.inj h)
        · intro h
          exact (h s) rfl
      · rw [hE]
        exact iff_of_true rfl ⟨s, rfl, hmem⟩
      · rw [hE]
        apply iff_of_false
        · rintro ⟨y, hy⟩
          exact Except.noConfusion hy
        · rintro ⟨s', hEq, hns⟩
          cases PyObj.str.inj hEq
          exact hns hmem
    · have hE := bwTransformE_ok s hmem
      refine ⟨?_, ?_, ?_⟩
      · rw [hE]
        apply iff_of_false
        · intro h
          exact Except.noConfusion h
        · intro h
          exact (h s) rfl
      · rw [hE]
        apply iff_of_false
        · intro h
          exact Except.noConfusion h
        · rintro ⟨s', hEq, hmem'⟩
          cases PyObj.str.inj hEq
          exact hmem hmem'
      · rw [hE]
        apply iff_of_true
        · exact ⟨bwTransform s, rfl⟩
        · exact ⟨s, rfl, hmem⟩
  all_goals
    refine ⟨?_, ?_, ?_⟩
    · exact iff_of_true rfl (fun s h => PyObj.noConfusion h)
    · apply iff_of_false
      · intro h
        exact PyError.noConfusion (Except.error.inj h)
      · rintro ⟨s, hEq, _⟩
        exact PyObj.noConfusion hEq
    · apply iff_of_false
      · rintro ⟨y, hy⟩
        exact Except.noConfusion hy
      · rintro ⟨s, hEq, _⟩
        exact PyObj.noConfusion hEq

/-- C6: the inverse transform fails with the TypeError exactly when the
input is not a string, with the terminator-missing TerminatorError
exactly when the string contains no terminator, with the
terminator-duplicate TerminatorError exactly when it contains more than
one, and returns a result exactly on strings with one terminator; the
reconstruction walk always performs exactly |t| - 1 LF steps. -/
theorem claim6_inverse_errors :
    (∀ x : PyObj,
      (bwInverseE x = Except.error (PyError.typeError typeMsg) ↔
        ∀ y : List Char, x ≠ PyObj.str y) ∧
      (bwInverseE x = Except.error (PyError.terminatorError missingMsg) ↔
        ∃ y : List Char, x = PyObj.str y ∧ y.count term = 0) ∧
      (bwInverseE x = Except.error (PyError.terminatorError dupMsg) ↔
        ∃ y : List Char, x = PyObj.str y ∧ 1 < y.count term) ∧
      ((∃ v, bwInverseE x = Except.ok v) ↔
        ∃ y : List Char, x = PyObj.str y ∧ y.count term = 1)) ∧
    (∀ y : List Char, (walkIdx y (y.length - 1) (idxTerm y)).length = y.length - 1) := by
  constructor
  · intro x
    cases x
    case str y =>
      by_cases h0 : y.count term = 0
      · have hE : bwInverseE (PyObj.str y) =
            Except.error (PyError.terminatorError missingMsg) := by
          rw [bwInverseE, if_pos h0]
        refine ⟨?_, ?_, ?_, ?_⟩
        · rw [hE]
          apply iff_of_false
          · intro h
            exact PyError.noConfusion (Except.error.inj h)
          · intro h
            exact (h y) rfl
        · rw [hE]
          exact iff_of_true rfl ⟨y, rfl, h0⟩
        · rw [hE]
          apply iff_of_false
          · intro h
            exact missingMsg_ne_dupMsg
              (PyError.terminatorError.inj (Except.error.inj h))
          · rintro ⟨y', hEq, hc⟩
            cases PyObj.str.inj hEq
            omega
        · rw [hE]
          apply iff_of_false
          · rintro ⟨v, hv⟩
            exact Except.noConfusion hv
          · rintro ⟨y', hEq, hc⟩
            cases PyObj.str.inj hEq
            omega
      · by_cases h2 : 1 < y.count term
        · have hE : bwInverseE (PyObj.str y) =
              Except.error (PyError.terminatorError dupMsg) := by
            rw [bwInverseE, if_neg h0, if_pos h2]
          refine ⟨?_, ?_, ?_, ?_⟩
          · rw [hE]
            apply iff_of_false
            · intro h
              exact PyError.noConfusion (Except.error.inj h)
            · intro h
              exact (h y) rfl
          · rw [hE]
            apply iff_of_false
            · intro h
              exact missingMsg_ne_dupMsg
                (PyError.terminatorError.inj (Except.error.inj h)).symm
            · rintro ⟨y', hEq, hc⟩
              cases PyObj.str.inj hEq
              omega
          · rw [hE]
            exact iff_of_true rfl ⟨y, rfl, h2⟩
          · rw [hE]
            apply iff_of_false
            · rintro ⟨v, hv⟩
              exact Except.noConfusion hv
            · rintro ⟨y', hEq, hc⟩
              cases PyObj.str.inj hEq
              omega
        · have h1 : y.count term = 1 := by omega
          have hE := bwInverseE_ok y h1
          refine ⟨?_, ?_, ?_, ?_⟩
          · rw [hE]
            apply iff_of_false
            · intro h
              exact Except.noConfusion h
            · intro h
              exact (h y) rfl
          · rw [hE]
            apply iff_of_false
            · intro h
              exact Except.noConfusion h
            · rintro ⟨y', hEq, hc⟩
              cases PyObj.str.inj hEq
              omega
          · rw [hE]
            apply iff_of_false
            · intro h
              exact Except.noConfusion h
            · rintro ⟨y', hEq, hc⟩
              cases PyObj.str.inj hEq
              omega
          · rw [hE]
            exact iff_of_true ⟨bwInverse y, rfl⟩ ⟨y, rfl, h1⟩
    all_goals
      refine ⟨?_, ?_, ?_, ?_⟩
      · exact iff_of_true rfl (fun y h => PyObj.noConfusion h)
      · apply iff_of_false
        · intro h
          exact PyError.noConfusion (Except.error.inj h)
        · rintro ⟨y, hEq, _⟩
          exact PyObj.noConfusion hEq
      · apply iff_of_false
        · intro h
          exact PyError.noConfusion (Except.error.inj h)
        · rintro ⟨y, hEq, _⟩
          exact PyObj.noConfusion hEq
      · apply iff_of_false
        · rintro ⟨v, hv⟩
          exact Except.noConfusion hv
        · rintro ⟨y, hEq, _⟩
          exact PyObj.noConfusion hEq
  · intro y
    exact walkIdx_length y _ _

/-- C7, as stated, is false on the code: the forward terminator-present
failure and the inverse terminator-missing failure are different kinds
but are raised through the very same exception class TerminatorError;
only the message strings differ. -/
theorem claim7_counterexample :
    bwTransformE (PyObj.str "lo$oogg".toList) =
      Except.error (PyError.terminatorError presentMsg) ∧
    bwInverseE (PyObj.str "googol".toList) =
      Except.error (PyError.terminatorError missingMsg) ∧
    (PyError.terminatorError presentMsg).cls =
      (PyError.terminatorError missingMsg).cls ∧
    presentMsg ≠ missingMsg :=
  ⟨rfl, rfl, rfl, presentMsg_ne_missingMsg⟩

/-- C7, amended: each of the four failure kinds surfaces as a structured
(class, message) pair and the four pairs are pairwise distinct, so the
caller can always tell which invariant was violated; however the three
terminator kinds share the single class TerminatorError and are
distinguished only by their messages, while TypeKind alone has its own
class TypeError. -/
theorem claim7_amended :
    bwTransformE (PyObj.int 5) = Except.error (PyError.typeError typeMsg) ∧
    bwTransformE (PyObj.str "lo$oogg".toList) =
      Except.error (PyError.terminatorError presentMsg) ∧
    bwInverseE (PyObj.str "googol".toList) =
      Except.error (PyError.terminatorError missingMsg) ∧
    bwInverseE (PyObj.str "lo$oogg$".toList) =
      Except.error (PyError.terminatorError dupMsg) ∧
    (PyError.typeError typeMsg).cls ≠ (PyError.terminatorError presentMsg).cls ∧
    (PyError.terminatorError presentMsg).cls =
      (PyError.terminatorError missingMsg).cls ∧
    (PyError.terminatorError presentMsg).cls =
      (PyError.terminatorError dupMsg).cls ∧
    presentMsg ≠ missingMsg ∧ presentMsg ≠ dupMsg ∧ missingMsg ≠ dupMsg := by
  refine ⟨rfl, rfl, rfl, rfl, ?_, rfl, rfl,
    presentMsg_ne_missingMsg, presentMsg_ne_dupMsg, missingMsg_ne_dupMsg⟩
  intro h
  exact ErrCls.noConfusion h

/-- C8, as stated, is false on the code: the LF map of an arbitrary
accepted inverse input need not be a single cycle.  On "a$b" (exactly one
terminator) the walk from the terminator position returns to its start
after 2 steps although the input has length 3. -/
theorem claim8_counterexample :
    (['a', '$', 'b'] : List Char).count term = 1 ∧ ¬ lfCycle ['a', '$', 'b'] := by
  refine ⟨by decide, ?_⟩
  intro h
  exact h.2 2 (by omega) (by decide) rfl

/-- C8, amended: on every transformed sequence produced by the forward
transform, the LF map T sends row indexes to row indexes, is injective on
them, and following T from the terminator's position first returns to its
start after exactly |t| steps, so the walk visits all |t| positions
exactly once. -/
theorem claim8_amended (s : List Char) (hs : term ∉ s) :
    lfCycle (bwTransform s) ∧
    (∀ j, j < (bwTransform s).length →
      lfT (bwTransform s) j < (bwTransform s).length) ∧
    (∀ a b, a < (bwTransform s).length → b < (bwTransform s).length →
      lfT (bwTransform s) a = lfT (bwTransform s) b → a = b) :=
  ⟨lfCycle_bwTransform s hs, fun j hj => lfT_lt_bwTransform s hs j hj,
    fun a b ha hb h => lfT_inj_bwTransform s hs a b ha hb h⟩

/-- Witness for the amended C8 at the concrete input "ab". -/
theorem claim8_witness :
    lfCycle (bwTransform ['a', 'b']) ∧
    (∀ j, j < (bwTransform ['a', 'b']).length →
      lfT (bwTransform ['a', 'b']) j < (bwTransform ['a', 'b']).length) ∧
    (∀ a b, a < (bwTransform ['a', 'b']).length →
      b < (bwTransform ['a', 'b']).length →
      lfT (bwTransform ['a', 'b']) a = lfT (bwTransform ['a', 'b']) b → a = b) :=
  claim8_amended ['a', 'b'] (by decide)

/-- C9: on every terminator-free input the suffix-array construction of
the transform (the modelled code) coincides with the sorted-rotations
definition of the spec, Transformed Sequence[k] =
Extended Sequence[(offset_k - 1 + N+1) mod (N+1)]. -/
theorem claim9_refinement (s : List Char) (hs : term ∉ s) :
    bwTransform s = transformRot s :=
  bwTransform_eq_transformRot s hs

/-- Witness for C9 at the concrete input "ab". -/
theorem claim9_witness : bwTransform ['a', 'b'] = transformRot ['a', 'b'] :=
  claim9_refinement ['a', 'b'] (by decide)

/-- C10: both operations accept only strings; every non-string input,
including a Python list of symbol characters, is rejected by both with a
TypeError carrying the message "The input is not a string". -/
theorem claim10_str_only (x : PyObj) (hx : ∀ s : List Char, x ≠ PyObj.str s) :
    bwTransformE x = Except.error (PyError.typeError typeMsg) ∧
    bwInverseE x = Except.error (PyError.typeError typeMsg) :=
  ⟨bwTransformE_not_str x hx, bwInverseE_not_str x hx⟩

/-- Witness for C10 at a list of symbol characters. -/
theorem claim10_witness :
    bwTransformE (PyObj.list [PyObj.str ['a'], PyObj.str ['b']]) =
      Except.error (PyError.typeError typeMsg) ∧
    bwInverseE (PyObj.list [PyObj.str ['a'], PyObj.str ['b']]) =
      Except.error (PyError.typeError typeMsg) :=
  claim10_str_only (PyObj.list [PyObj.str ['a'], PyObj.str ['b']])
    (fun _ h => PyObj.noConfusion h)

end BWT
